import Mathlib

namespace GoHTTPProbe

/-!
Verification of the GoHTTPProbe probe engine (package `probe`) against its
specification.  The Go source is shallowly embedded: pure string processing
becomes Lean functions on `String`/`List`, fallible operations return
`Except String _`, external effects (file reads, the network) are passed in
as explicit outcome parameters, and the concurrent dispatch loop becomes a
small-step transition relation.  Character-level operations
(`strings.ToUpper`, `strings.TrimSpace`) are modelled on the ASCII range,
which covers every HTTP method token the program manipulates.
-/

/-- Structure `Config` from probe.go: per-run configuration options.
`Timeout` is an `Int` because Go's `int` field may hold non-positive values;
`Threads` is the semaphore capacity. -/
structure Config where
  URL : String
  Verbose : Bool
  Quiet : Bool
  Insecure : Bool
  FollowRedir : Bool
  SafeOnly : Bool
  Wordlist : String
  Threads : Nat
  JSONFile : String
  Proxy : String
  Cookies : String
  Headers : List String
  InputFile : String
  CookieJar : String
  Timeout : Int
deriving Repr, DecidableEq

/-- Structure `Result` from probe.go: the outcome recorded for one HTTP method. -/
structure Result where
  StatusCode : Nat
  Length : Nat
  Reason : String
deriving Repr, DecidableEq

/-- Constant `DefaultMethods` from probe.go: the built-in list of HTTP methods. -/
def DefaultMethods : List String :=
  ["CHECKIN", "CHECKOUT", "CONNECT", "COPY", "DELETE", "GET", "HEAD", "INDEX",
   "LINK", "LOCK", "MKCOL", "MOVE", "NOEXISTE", "OPTIONS", "ORDERPATCH",
   "PATCH", "POST", "PROPFIND", "PROPPATCH", "PUT", "REPORT", "SEARCH",
   "SHOWMETHOD", "SPACEJUMP", "TEXTSEARCH", "TRACE", "TRACK", "UNCHECKOUT",
   "UNLINK", "UNLOCK", "VERSION-CONTROL", "BAMBOOZLE"]

/-- Constant `DangerousMethods` from probe.go, a `map[string]bool` used only for
membership tests; modelled as the list of its keys. -/
def DangerousMethods : List String :=
  ["DELETE", "COPY", "PUT", "PATCH", "UNCHECKOUT"]

/-- Membership test `DangerousMethods[method]` from probe.go. -/
def isDangerous (method : String) : Bool :=
  DangerousMethods.contains method

/-- The safe-mode loop in `runSingleProbe` (lines 127-134): keep the methods
for which `!DangerousMethods[method]`. -/
def filterSafeMethods (methods : List String) : List String :=
  methods.filter (fun method => !isDangerous method)

/-- The `if config.SafeOnly` branch of `runSingleProbe`: filter when safe
mode is on, pass the catalog through unchanged otherwise. -/
def selectMethods (safeOnly : Bool) (methods : List String) : List String :=
  if safeOnly then filterSafeMethods methods else methods

/-- The client value produced by `buildHTTPClient`: the fields of
`http.Client`/`http.Transport` that the configuration determines. -/
structure HTTPClient where
  timeoutSeconds : Int
  insecureSkipVerify : Bool
  proxy : Option String
  followRedirects : Bool
deriving Repr, DecidableEq

/-- Function `buildHTTPClient` from probe.go.  `parseURL` stands for the external
`url.Parse`, the only fallible call in the function. -/
def buildHTTPClient (parseURL : String → Except String Unit) (config : Config) :
    Except String HTTPClient :=
  let timeout : Int := if config.Timeout > 0 then config.Timeout else 10
  if config.Proxy ≠ "" then
    match parseURL config.Proxy with
    | .error e => .error ("invalid proxy URL: " ++ e)
    | .ok _ => .ok ⟨timeout, config.Insecure, some config.Proxy, config.FollowRedir⟩
  else
    .ok ⟨timeout, config.Insecure, none, config.FollowRedir⟩

/-! ### String primitives

Embeddings of the Go standard-library string operations the probe engine
uses, defined over `String.data` so that they compute by kernel reduction.
`Char.toUpper` and `Char.isWhitespace` model `strings.ToUpper` and
`strings.TrimSpace` on the ASCII range. -/

/-- Embedding of `strings.ToUpper`. -/
def toUpperStr (s : String) : String := ⟨s.data.map Char.toUpper⟩

/-- The character list underlying `strings.TrimSpace`: drop whitespace from
the front, then from the back. -/
def trimData (l : List Char) : List Char :=
  ((l.dropWhile Char.isWhitespace).reverse.dropWhile Char.isWhitespace).reverse

/-- Embedding of `strings.TrimSpace`. -/
def trimStr (s : String) : String := ⟨trimData s.data⟩

/-- Embedding of `strings.HasPrefix(line, "#")`. -/
def startsWithHash (s : String) : Bool :=
  match s.data with
  | [] => false
  | c :: _ => c = '#'

/-- Embedding of `strings.Split(s, ",")` on the underlying character list; `acc` is the
reversed current field. -/
def splitCommaData : List Char → List Char → List (List Char)
  | [], acc => [acc.reverse]
  | c :: rest, acc =>
    if c = ',' then acc.reverse :: splitCommaData rest []
    else splitCommaData rest (c :: acc)

/-- Embedding of `strings.Split(s, ",")`. -/
def splitOnComma (s : String) : List String :=
  (splitCommaData s.data []).map (fun l => ⟨l⟩)

/-- Go's string `<=`: byte-wise lexicographic comparison, which on UTF-8
data coincides with comparison of the scalar-value sequences. -/
def charListLe : List Char → List Char → Bool
  | [], _ => true
  | _ :: _, [] => false
  | a :: as, b :: bs =>
    if a = b then charListLe as bs else decide (a < b)

/-- The order `sort.Strings` sorts by. -/
def strLe (s t : String) : Prop := charListLe s.data t.data = true

instance : DecidableRel strLe := fun s t =>
  inferInstanceAs (Decidable (charListLe s.data t.data = true))

instance : IsTotal String strLe := by
  constructor
  intro s t
  show charListLe s.data t.data = true ∨ charListLe t.data s.data = true
  generalize s.data = x
  generalize t.data = y
  induction x generalizing y with
  | nil => exact .inl rfl
  | cons a as ih =>
    cases y with
    | nil => exact .inr rfl
    | cons b bs =>
      by_cases hab : a = b
      · subst hab
        rcases ih bs with h | h
        · exact .inl (by simpa [charListLe] using h)
        · exact .inr (by simpa [charListLe] using h)
      · rcases lt_or_gt_of_ne hab with hlt | hgt
        · exact .inl (by simp [charListLe, hab, hlt])
        · exact .inr (by simp [charListLe, Ne.symm hab, hgt])

instance : IsTrans String strLe := by
  constructor
  intro s t u
  show charListLe s.data t.data = true → charListLe t.data u.data = true →
    charListLe s.data u.data = true
  generalize s.data = x
  generalize t.data = y
  generalize u.data = z
  induction x generalizing y z with
  | nil => intro h1 h2; rfl
  | cons a as ih =>
    intro h1 h2
    cases y with
    | nil => simp [charListLe] at h1
    | cons b bs =>
      cases z with
      | nil => simp [charListLe] at h2
      | cons c cs =>
        by_cases hab : a = b <;> by_cases hbc : b = c
        · subst hab; subst hbc
          simp only [charListLe, if_pos rfl] at h1 h2 ⊢
          exact ih bs cs h1 h2
        · subst hab
          simpa [charListLe, hbc] using h2
        · subst hbc
          simpa [charListLe, hab] using h1
        · simp only [charListLe, if_neg hab, if_neg hbc, decide_eq_true_eq] at h1 h2
          have hac : a < c := lt_trans h1 h2
          simp [charListLe, ne_of_lt hac, hac]

/-- Embedding of `sort.Strings`: the ascending sorted permutation of the input (modelled
with insertion sort; any sorting algorithm yields the same list). -/
def sortStrings (methods : List String) : List String :=
  List.insertionSort strLe methods

/-! ### Method catalog builder -/

/-- The line processing of `readLinesFromFile`: every scanned line is
trimmed and kept when non-empty and not a `#` comment. -/
def processLines (rawLines : List String) : List String :=
  (rawLines.map trimStr).filter (fun line => line != "" && !startsWithHash line)

/-- Function `readLinesFromFile`: the file content (or the I/O error of opening or
scanning it) is the explicit `fileContent` parameter. -/
def readLinesFromFile (fileContent : Except String (List String)) :
    Except String (List String) :=
  match fileContent with
  | .error e => .error e
  | .ok rawLines => .ok (processLines rawLines)

/-- The normalization loop of `getMethods` (lines 334-343): trim, uppercase,
drop empties, deduplicate against the `seen` set. -/
def normalizeMethods : List String → List String → List String
  | [], _ => []
  | method :: rest, seen =>
    let uppercase := toUpperStr (trimStr method)
    if uppercase ≠ "" ∧ uppercase ∉ seen then
      uppercase :: normalizeMethods rest (uppercase :: seen)
    else
      normalizeMethods rest seen

/-- An HTTP response as the probe observes it: status, status text, the
`Allow` header (`""` when absent, matching `Header.Get`), and the full body
length in bytes. -/
structure HttpResponse where
  statusCode : Nat
  statusText : String
  allowHeader : String
  bodyLength : Nat
deriving Repr, DecidableEq

/-- The outcome of one HTTP exchange: `http.NewRequest` failure, a
`client.Do` transport failure, or a response. -/
inductive ReqOutcome where
  | constructFail (e : String)
  | transportFail (e : String)
  | response (resp : HttpResponse)
deriving Repr, DecidableEq

/-- The `([]string, error)` pair returned by `getMethodsFromOptions`;
in Go both components may independently be nil. -/
structure OptionsResult where
  methods : List String
  err : Option String
deriving Repr, DecidableEq

/-- Function `getMethodsFromOptions`: issue one OPTIONS request, parse the `Allow`
header.  `net` is the outcome of the exchange.  On a non-200 status or a
missing `Allow` header the function returns `(nil, err)` where `err` is the
nil error left over from the successful `client.Do` call. -/
def getMethodsFromOptions (parseURL : String → Except String Unit) (config : Config)
    (net : ReqOutcome) : OptionsResult :=
  if config.URL = "" then ⟨[], some "no URL provided for OPTIONS request"⟩
  else
    match buildHTTPClient parseURL config with
    | .error e => ⟨[], some e⟩
    | .ok _ =>
      match net with
      | .constructFail e => ⟨[], some e⟩
      | .transportFail e => ⟨[], some e⟩
      | .response resp =>
        if resp.statusCode ≠ 200 then ⟨[], none⟩
        else if resp.allowHeader = "" then ⟨[], none⟩
        else ⟨(splitOnComma resp.allowHeader).map trimStr, none⟩

/-- The catalog and whether the OPTIONS-failure warning was printed. -/
structure MethodsOutcome where
  methods : List String
  optionsWarning : Bool
deriving Repr, DecidableEq

instance {ε α : Type} [DecidableEq ε] [DecidableEq α] : DecidableEq (Except ε α) := fun a b =>
  match a, b with
  | .ok x, .ok y =>
    if h : x = y then .isTrue (by rw [h])
    else .isFalse (fun hc => by cases hc; exact h rfl)
  | .error x, .error y =>
    if h : x = y then .isTrue (by rw [h])
    else .isFalse (fun hc => by cases hc; exact h rfl)
  | .ok _, .error _ => .isFalse (fun hc => by cases hc)
  | .error _, .ok _ => .isFalse (fun hc => by cases hc)

/-- Lines 310-322 of `getMethods`: the mandatory catalog sources — the
built-in defaults, plus the wordlist lines when a wordlist is configured.
A wordlist read failure is fatal. -/
def collectMethods (wordlistContent : Except String (List String)) (config : Config) :
    Except String (List String) :=
  if config.Wordlist ≠ "" then
    match readLinesFromFile wordlistContent with
    | .error e => .error ("failed to read wordlist: " ++ e)
    | .ok wordlistMethods => .ok (DefaultMethods ++ wordlistMethods)
  else .ok DefaultMethods

/-- Lines 326-332 of `getMethods`: a discovery error only warns (the catalog
is left alone); otherwise a non-empty discovered list is appended. -/
def applyOptions (methods : List String) (opts : OptionsResult) : List String :=
  match opts.err with
  | some _ => methods
  | none =>
    if opts.methods.length > 0 then methods ++ opts.methods else methods

/-- Function `getMethods`: defaults, then the wordlist (fatal on read failure), then
best-effort OPTIONS discovery (warning on error), then normalize and sort.
`wordlistContent` is the wordlist file's content or its read error. -/
def getMethods (parseURL : String → Except String Unit)
    (wordlistContent : Except String (List String)) (net : ReqOutcome)
    (config : Config) : Except String MethodsOutcome :=
  match collectMethods wordlistContent config with
  | .error e => .error e
  | .ok methods =>
    .ok ⟨sortStrings (normalizeMethods
          (applyOptions methods (getMethodsFromOptions parseURL config net)) []),
        (getMethodsFromOptions parseURL config net).err.isSome⟩

/-! ### Probe dispatcher

The concurrent dispatch loop of `runSingleProbe` (lines 142-156): one
goroutine per catalog method, admission bounded by a semaphore channel of
capacity `config.Threads`, results inserted into a shared map under a
mutex, `wg.Wait()` as the join barrier.  It is embedded as a small-step
transition relation over snapshots of the worker states and the shared
map; the per-method request outcomes are the environment `env`. -/

/-- The 1 MiB body-read cap of `testMethod` (`io.LimitReader`). -/
def maxBodyBytes : Nat := 1024 * 1024

/-- Go map assignment `results[method] = r`: replace the entry if the key
is present, otherwise add it. -/
def insertResult (results : List (String × Result)) (method : String) (r : Result) :
    List (String × Result) :=
  if results.any (fun p => p.1 == method) then
    results.map (fun p => if p.1 == method then (method, r) else p)
  else results ++ [(method, r)]

/-- Function `testMethod`: build the request (skip the method on failure), execute
it, and record the outcome — `⟨0, 0, error text⟩` on transport failure,
status/capped length/status text on success.  The first component counts
the HTTP requests issued. -/
def testMethod (method : String) (outcome : ReqOutcome)
    (results : List (String × Result)) : Nat × List (String × Result) :=
  match outcome with
  | .constructFail _ => (0, results)
  | .transportFail e => (1, insertResult results method ⟨0, 0, e⟩)
  | .response resp =>
    (1, insertResult results method
      ⟨resp.statusCode, min resp.bodyLength maxBodyBytes, resp.statusText⟩)

/-- The result `testMethod` records for an outcome, `none` when request
construction fails and the method is skipped. -/
def recordOf (outcome : ReqOutcome) : Option Result :=
  match outcome with
  | .constructFail _ => none
  | .transportFail e => some ⟨0, 0, e⟩
  | .response resp =>
    some ⟨resp.statusCode, min resp.bodyLength maxBodyBytes, resp.statusText⟩

/-- The status of one worker goroutine: not yet admitted by the semaphore,
holding a semaphore slot with its request in flight, or finished with the
slot released. -/
inductive TaskState where
  | pending
  | running
  | done
deriving Repr, DecidableEq

/-- Worker `t` currently holds a semaphore slot. -/
def isRunning : TaskState → Bool
  | .running => true
  | _ => false

/-- Number of semaphore slots currently taken. -/
def countRunning (tasks : List TaskState) : Nat :=
  tasks.countP isRunning

/-- A snapshot of the dispatch loop: one state per catalog method (all
goroutines are started up front) and the shared result map. -/
structure DispatchState where
  tasks : List TaskState
  results : List (String × Result)
deriving Repr, DecidableEq

/-- The state right after the `for … go func …` loop: every worker pending,
the map empty. -/
def initState (methods : List String) : DispatchState :=
  ⟨methods.map (fun _ => .pending), []⟩

/-- One scheduler step.  `acquire i`: worker `i` acquires a semaphore slot
(`semaphore <- struct{}{}`), possible only while fewer than `threads` slots
are taken.  `finish i`: worker `i`'s `testMethod` call returns, its result
(if the request was constructed) having been inserted under the mutex, and
the deferred `<-semaphore` releases the slot on this exit path as on every
other. -/
inductive DispatchStep (methods : List String) (threads : Nat)
    (env : String → ReqOutcome) : DispatchState → DispatchState → Prop where
  | acquire (i : Nat) (s : DispatchState)
      (hi : s.tasks[i]? = some .pending)
      (hcap : countRunning s.tasks < threads) :
      DispatchStep methods threads env s ⟨s.tasks.set i .running, s.results⟩
  | finish (i : Nat) (m : String) (s : DispatchState)
      (hi : s.tasks[i]? = some .running)
      (hm : methods[i]? = some m) :
      DispatchStep methods threads env s
        ⟨s.tasks.set i .done, (testMethod m (env m) s.results).2⟩

/-- Dispatch snapshots reachable from the start of the loop. -/
def DispatchReachable (methods : List String) (threads : Nat)
    (env : String → ReqOutcome) (s : DispatchState) : Prop :=
  Relation.ReflTransGen (DispatchStep methods threads env) (initState methods) s

/-- The dispatch-loop invariant: the task list never changes length, the
map's keys are exactly the methods of the finished workers whose request
was constructed, no key repeats, and every entry holds the result its
worker's `testMethod` recorded. -/
def DispatchInv (methods : List String) (env : String → ReqOutcome)
    (s : DispatchState) : Prop :=
  s.tasks.length = methods.length ∧
  (∀ k, k ∈ s.results.map Prod.fst ↔
    ∃ i : Nat, s.tasks[i]? = some TaskState.done ∧ methods[i]? = some k ∧
      (recordOf (env k)).isSome = true) ∧
  (s.results.map Prod.fst).Nodup ∧
  (∀ p ∈ s.results, recordOf (env p.1) = some p.2)

/-- The aggregate after all workers join, written as a fold: the mutex
serializes the inserts and each worker owns one key, so the final map does
not depend on the interleaving. -/
def dispatchAll (env : String → ReqOutcome) (methods : List String) :
    List (String × Result) :=
  methods.foldl (fun results m => (testMethod m (env m) results).2) []

/-- Function `runSingleProbe`, with its fallible collaborator calls in source order:
client construction, header parsing, cookie parsing, catalog construction,
then dispatch, then the optional JSON export.  The dispatch loop produces
the result map but no error; only the steps around it can fail the run.
`headersResult`, `cookiesResult` and `exportResult` are the outcomes of the
respective collaborator calls, `env` the per-method request outcomes. -/
def runSingleProbe (parseURL : String → Except String Unit)
    (headersResult cookiesResult : Except String Unit)
    (wordlistContent : Except String (List String)) (net : ReqOutcome)
    (env : String → ReqOutcome) (exportResult : Except String Unit)
    (config : Config) : Except String (List (String × Result)) :=
  match buildHTTPClient parseURL config with
  | .error e => .error ("failed to build HTTP client: " ++ e)
  | .ok _ =>
    match headersResult with
    | .error e => .error ("failed to parse headers: " ++ e)
    | .ok _ =>
      match cookiesResult with
      | .error e => .error ("failed to parse cookies: " ++ e)
      | .ok _ =>
        match getMethods parseURL wordlistContent net config with
        | .error e => .error ("failed to get methods: " ++ e)
        | .ok out =>
          if config.JSONFile ≠ "" then
            match exportResult with
            | .error e => .error ("failed to export results to JSON: " ++ e)
            | .ok _ => .ok (dispatchAll env (selectMethods config.SafeOnly out.methods))
          else .ok (dispatchAll env (selectMethods config.SafeOnly out.methods))

/-- C8: for every configuration, the HTTP client built by `buildHTTPClient`
has timeout 10 seconds whenever the configured timeout is unset (zero) or
non-positive, and the configured value otherwise. -/
theorem buildHTTPClient_timeout (parseURL : String → Except String Unit)
    (config : Config) (client : HTTPClient)
    (h : buildHTTPClient parseURL config = .ok client) :
    (config.Timeout ≤ 0 → client.timeoutSeconds = 10) ∧
    (0 < config.Timeout → client.timeoutSeconds = config.Timeout) := by
  unfold buildHTTPClient at h
  have htime : client.timeoutSeconds =
      (if config.Timeout > 0 then config.Timeout else 10) := by
    by_cases hp : config.Proxy ≠ "" <;> simp [hp] at h
    · cases hpu : parseURL config.Proxy <;> rw [hpu] at h <;> simp at h
      rw [← h]
    · rw [← h]
  constructor <;> intro ht <;> rw [htime]
  · rw [if_neg (by omega)]
  · rw [if_pos ht]

/-- Witness for C8 at a concrete configuration with `Timeout = 0`. -/
theorem buildHTTPClient_timeout_witness :
    (⟨"x", false, false, false, false, false, "", 1, "", "", "", [], "", "", 0⟩ :
      Config).Timeout ≤ 0 ∧
    (⟨10, false, none, false⟩ : HTTPClient).timeoutSeconds = 10 := by
  refine ⟨by decide, ?_⟩
  exact (buildHTTPClient_timeout (fun _ => .ok ())
    ⟨"x", false, false, false, false, false, "", 1, "", "", "", [], "", "", 0⟩
    ⟨10, false, none, false⟩ rfl).1 (by decide)

/-- C5: safe-mode filtering is idempotent, a sublist operation (hence a
subset that preserves relative order), removes exactly the members of
`DangerousMethods`, and with safe mode disabled the catalog passes through
unchanged. -/
theorem filterSafeMethods_properties (C : List String) :
    filterSafeMethods (filterSafeMethods C) = filterSafeMethods C ∧
    (filterSafeMethods C).Sublist C ∧
    (∀ m, m ∈ filterSafeMethods C ↔ (m ∈ C ∧ m ∉ DangerousMethods)) ∧
    selectMethods false C = C := by
  refine ⟨?_, List.filter_sublist C, ?_, rfl⟩
  · simp only [filterSafeMethods]
    rw [List.filter_filter]
    simp
  · intro m
    simp [filterSafeMethods, isDangerous, List.contains, List.elem_iff]

/-- Witness for C5 at a concrete catalog. -/
theorem filterSafeMethods_properties_witness :
    filterSafeMethods (filterSafeMethods ["DELETE", "GET"]) =
      filterSafeMethods ["DELETE", "GET"] ∧
    (filterSafeMethods ["DELETE", "GET"]).Sublist ["DELETE", "GET"] ∧
    (∀ m, m ∈ filterSafeMethods ["DELETE", "GET"] ↔
      (m ∈ ["DELETE", "GET"] ∧ m ∉ DangerousMethods)) ∧
    selectMethods false ["DELETE", "GET"] = ["DELETE", "GET"] :=
  filterSafeMethods_properties ["DELETE", "GET"]

/-- C10: the set of methods removed by safe mode is exactly
{DELETE, COPY, PUT, PATCH, UNCHECKOUT}; every other default-catalog method,
including POST, MKCOL, MOVE, LOCK and UNLOCK, is still dispatched when
safe-only is enabled. -/
theorem dangerous_set_exact :
    (∀ m, isDangerous m = true ↔
      (m = "DELETE" ∨ m = "COPY" ∨ m = "PUT" ∨ m = "PATCH" ∨ m = "UNCHECKOUT")) ∧
    "POST" ∈ selectMethods true DefaultMethods ∧
    "MKCOL" ∈ selectMethods true DefaultMethods ∧
    "MOVE" ∈ selectMethods true DefaultMethods ∧
    "LOCK" ∈ selectMethods true DefaultMethods ∧
    "UNLOCK" ∈ selectMethods true DefaultMethods ∧
    (∀ m ∈ DefaultMethods,
      (m ∈ selectMethods true DefaultMethods ↔
        ¬(m = "DELETE" ∨ m = "COPY" ∨ m = "PUT" ∨ m = "PATCH" ∨ m = "UNCHECKOUT"))) := by
  refine ⟨?_, by decide, by decide, by decide, by decide, by decide, by decide⟩
  intro m
  simp [isDangerous, DangerousMethods, List.contains, List.elem_iff]

/-! ### Theorems -/

theorem normalizeMethods_mem {u : String} : ∀ (ms seen : List String),
    u ∈ normalizeMethods ms seen → u ≠ "" ∧ u ∉ seen := by
  intro ms
  induction ms with
  | nil => intro seen h; simp [normalizeMethods] at h
  | cons m rest ih =>
    intro seen h
    by_cases hc : toUpperStr (trimStr m) ≠ "" ∧ toUpperStr (trimStr m) ∉ seen
    · simp only [normalizeMethods, if_pos hc, List.mem_cons] at h
      rcases h with h | h
      · exact h ▸ hc
      · have := ih _ h
        exact ⟨this.1, fun hs => this.2 (List.mem_cons_of_mem _ hs)⟩
    · simp only [normalizeMethods, if_neg hc] at h
      exact ih _ h

theorem normalizeMethods_nodup : ∀ (ms seen : List String),
    (normalizeMethods ms seen).Nodup := by
  intro ms
  induction ms with
  | nil => intro seen; simp [normalizeMethods]
  | cons m rest ih =>
    intro seen
    by_cases hc : toUpperStr (trimStr m) ≠ "" ∧ toUpperStr (trimStr m) ∉ seen
    · simp only [normalizeMethods, if_pos hc]
      refine List.nodup_cons.2 ⟨fun hmem => ?_, ih _⟩
      exact (normalizeMethods_mem _ _ hmem).2 (List.mem_cons_self _ _)
    · simp only [normalizeMethods, if_neg hc]
      exact ih _

theorem normalizeMethods_complete {x : String} : ∀ (ms seen : List String),
    x ∈ ms → toUpperStr (trimStr x) ≠ "" →
    toUpperStr (trimStr x) ∈ normalizeMethods ms seen ∨ toUpperStr (trimStr x) ∈ seen := by
  intro ms
  induction ms with
  | nil => intro seen hx; simp at hx
  | cons m rest ih =>
    intro seen hx hne
    by_cases hc : toUpperStr (trimStr m) ≠ "" ∧ toUpperStr (trimStr m) ∉ seen
    · simp only [normalizeMethods, if_pos hc]
      rcases List.mem_cons.1 hx with hx | hx
      · subst hx
        exact .inl (List.mem_cons_self _ _)
      · rcases ih (toUpperStr (trimStr m) :: seen) hx hne with h | h
        · exact .inl (List.mem_cons_of_mem _ h)
        · rcases List.mem_cons.1 h with h | h
          · exact .inl (h ▸ List.mem_cons_self _ _)
          · exact .inr h
    · simp only [normalizeMethods, if_neg hc]
      rcases List.mem_cons.1 hx with hx | hx
      · subst hx
        rcases not_and_or.1 hc with h | h
        · exact (h hne).elim
        · exact .inr (not_not.1 h)
      · exact ih seen hx hne

theorem dropWhile_idem (p : Char → Bool) (l : List Char) :
    (l.dropWhile p).dropWhile p = l.dropWhile p := by
  induction l with
  | nil => rfl
  | cons a t ih =>
    by_cases h : p a
    · simp [List.dropWhile_cons, h, ih]
    · simp [List.dropWhile_cons, h]

theorem dropWhile_eq_self_of_append (p : Char → Bool) {xs t r : List Char}
    (hx : xs.dropWhile p = xs) (ht : t ++ r = xs) : t.dropWhile p = t := by
  cases t with
  | nil => rfl
  | cons b t' =>
    have hb : p b = false := by
      by_contra hpb
      have hpb' : p b = true := by revert hpb; cases p b <;> simp
      rw [← ht, List.cons_append, List.dropWhile_cons, if_pos hpb'] at hx
      have hlen : ((t' ++ r).dropWhile p).length ≤ (t' ++ r).length :=
        (List.dropWhile_suffix p).sublist.length_le
      rw [hx] at hlen
      simp at hlen
    simp [List.dropWhile_cons, hb]

theorem trimData_idem (l : List Char) : trimData (trimData l) = trimData l := by
  set ws := Char.isWhitespace
  set m := l.dropWhile ws with hm
  have h1 : m.dropWhile ws = m := dropWhile_idem ws l
  set u := m.reverse.dropWhile ws with hu
  have h2 : u.dropWhile ws = u := dropWhile_idem ws m.reverse
  have htd : trimData l = u.reverse := rfl
  obtain ⟨s, hs⟩ := (List.dropWhile_suffix (l := m.reverse) ws)
  have hpre : u.reverse ++ s.reverse = m := by
    have := congrArg List.reverse hs
    simpa [List.reverse_append] using this
  have hA : u.reverse.dropWhile ws = u.reverse :=
    dropWhile_eq_self_of_append ws h1 hpre
  rw [htd]
  show ((u.reverse.dropWhile ws).reverse.dropWhile ws).reverse = u.reverse
  rw [hA, List.reverse_reverse, h2]

theorem trimStr_idem (s : String) : trimStr (trimStr s) = trimStr s := by
  simp [trimStr, trimData_idem]

theorem toUpperStr_ne_empty {s : String} (h : s ≠ "") : toUpperStr s ≠ "" := by
  intro hcon
  apply h
  cases s with
  | mk data =>
    have : data.map Char.toUpper = [] := congrArg String.data hcon
    have hdata : data = [] := List.map_eq_nil_iff.1 this
    rw [hdata]

theorem sortStrings_perm (l : List String) : List.Perm (sortStrings l) l :=
  List.perm_insertionSort strLe l

theorem sortStrings_sorted (l : List String) : List.Sorted strLe (sortStrings l) :=
  List.sorted_insertionSort strLe l

/-- Elimination principle for a successful `getMethods`: the mandatory
sources succeeded, and the result is their sorted normalization after
best-effort discovery. -/
theorem getMethods_ok_elim {parseURL : String → Except String Unit}
    {wc : Except String (List String)} {net : ReqOutcome} {config : Config}
    {out : MethodsOutcome} (h : getMethods parseURL wc net config = .ok out) :
    ∃ ms, collectMethods wc config = .ok ms ∧
      out.methods = sortStrings (normalizeMethods
        (applyOptions ms (getMethodsFromOptions parseURL config net)) []) ∧
      out.optionsWarning = (getMethodsFromOptions parseURL config net).err.isSome := by
  unfold getMethods at h
  split at h
  · exact absurd h (by simp)
  · next ms heq =>
    cases h
    exact ⟨ms, heq, rfl, rfl⟩

/-- Evaluating `collectMethods` with a configured, readable wordlist: defaults plus the
processed wordlist lines. -/
theorem collectMethods_wordlist {rawLines : List String} {config : Config}
    (hcw : config.Wordlist ≠ "") :
    collectMethods (.ok rawLines) config = .ok (DefaultMethods ++ processLines rawLines) := by
  unfold collectMethods
  rw [if_pos hcw]
  rfl

/-- Evaluating `collectMethods` without a wordlist: just the defaults. -/
theorem collectMethods_noWordlist {wc : Except String (List String)} {config : Config}
    (hcw : config.Wordlist = "") :
    collectMethods wc config = .ok DefaultMethods := by
  unfold collectMethods
  rw [if_neg (by simp [hcw])]

/-- Lemma: `collectMethods` fails exactly when a wordlist is configured and its
read failed. -/
theorem collectMethods_error_iff (wc : Except String (List String)) (config : Config) :
    (∃ e, collectMethods wc config = .error e) ↔
      (config.Wordlist ≠ "" ∧ ∃ e, wc = .error e) := by
  by_cases hcw : config.Wordlist ≠ ""
  · cases wc with
    | error e =>
      simp only [collectMethods, if_pos hcw, readLinesFromFile]
      constructor
      · intro _; exact ⟨hcw, e, rfl⟩
      · intro _; exact ⟨_, rfl⟩
    | ok raw =>
      simp only [collectMethods, if_pos hcw, readLinesFromFile]
      constructor
      · rintro ⟨e, he⟩; cases he
      · rintro ⟨-, e, he⟩; cases he
  · rw [not_ne_iff] at hcw
    rw [collectMethods_noWordlist hcw]
    constructor
    · rintro ⟨e, he⟩; cases he
    · rintro ⟨hne, -⟩; exact absurd hcw hne

/-- Lemma: `getMethods` fails exactly when `collectMethods` does. -/
theorem getMethods_error_iff_collect (parseURL : String → Except String Unit)
    (wc : Except String (List String)) (net : ReqOutcome) (config : Config) :
    (∃ e, getMethods parseURL wc net config = .error e) ↔
      (∃ e, collectMethods wc config = .error e) := by
  unfold getMethods
  cases hcm : collectMethods wc config with
  | error e =>
    constructor
    · intro _; exact ⟨e, rfl⟩
    · intro _; exact ⟨e, rfl⟩
  | ok ms =>
    constructor
    · rintro ⟨e, he⟩; cases he
    · rintro ⟨e, he⟩; cases he

/-- Lemma: `applyOptions` only ever appends to the catalog. -/
theorem applyOptions_shape (methods : List String) (opts : OptionsResult) :
    ∃ extra, applyOptions methods opts = methods ++ extra := by
  obtain ⟨oms, oerr⟩ := opts
  cases oerr with
  | some e => exact ⟨[], by simp [applyOptions]⟩
  | none =>
    by_cases hlen : oms.length > 0
    · exact ⟨oms, by simp [applyOptions, hlen]⟩
    · exact ⟨[], by simp [applyOptions, hlen]⟩

/-- A discovery error leaves the catalog alone. -/
theorem applyOptions_err (methods : List String) (opts : OptionsResult)
    (h : opts.err.isSome = true) : applyOptions methods opts = methods := by
  obtain ⟨oms, oerr⟩ := opts
  cases oerr with
  | none => simp at h
  | some e => simp [applyOptions]

/-- When the wordlist is configured and readable, the working list handed to
normalization is the defaults, then the processed wordlist lines, then
possibly the OPTIONS-discovered tokens. -/
theorem getMethods_ok_wordlist_shape {parseURL : String → Except String Unit}
    {rawLines : List String} {net : ReqOutcome} {config : Config}
    {out : MethodsOutcome} (hcw : config.Wordlist ≠ "")
    (h : getMethods parseURL (.ok rawLines) net config = .ok out) :
    ∃ extra, out.methods =
      sortStrings (normalizeMethods ((DefaultMethods ++ processLines rawLines) ++ extra) []) := by
  obtain ⟨ms, hc, hm, -⟩ := getMethods_ok_elim h
  rw [collectMethods_wordlist hcw] at hc
  injection hc with hc
  obtain ⟨extra, he⟩ := applyOptions_shape ms (getMethodsFromOptions parseURL config net)
  refine ⟨extra, ?_⟩
  rw [hm, he, hc]

/-- The normalized, sorted catalog contains the normal form of every working
list element whose normal form is non-empty. -/
theorem catalog_mem_of_input {x : String} {ms : List String} (hx : x ∈ ms)
    (hne : toUpperStr (trimStr x) ≠ "") :
    toUpperStr (trimStr x) ∈ sortStrings (normalizeMethods ms []) := by
  rcases normalizeMethods_complete ms [] hx hne with h | h
  · exact ((sortStrings_perm _).mem_iff).2 h
  · simp at h

/-- C3: for every input — any default list contents, wordlist lines,
discovered OPTIONS tokens, arbitrary case and surrounding whitespace, blank
and comment lines — the catalog returned by `getMethods` is sorted
lexicographically ascending, contains no empty strings and contains no
duplicates. -/
theorem catalog_sorted_nodup_noEmpty (parseURL : String → Except String Unit)
    (wc : Except String (List String)) (net : ReqOutcome) (config : Config)
    (out : MethodsOutcome) (h : getMethods parseURL wc net config = .ok out) :
    List.Sorted strLe out.methods ∧ out.methods.Nodup ∧ "" ∉ out.methods := by
  obtain ⟨ms, -, hms, -⟩ := getMethods_ok_elim h
  rw [hms]
  refine ⟨sortStrings_sorted _, ?_, ?_⟩
  · exact ((sortStrings_perm _).nodup_iff).2 (normalizeMethods_nodup _ [])
  · intro hmem
    have hmem' := ((sortStrings_perm _).mem_iff).1 hmem
    exact (normalizeMethods_mem _ _ hmem').1 rfl

/-- Witness for C3: the default-only catalog of a concrete run. -/
theorem catalog_sorted_nodup_noEmpty_witness :
    List.Sorted strLe (sortStrings (normalizeMethods DefaultMethods [])) ∧
    (sortStrings (normalizeMethods DefaultMethods [])).Nodup ∧
    "" ∉ sortStrings (normalizeMethods DefaultMethods []) :=
  catalog_sorted_nodup_noEmpty (fun _ => .ok ()) (.ok []) (.transportFail "x")
    ⟨"", false, false, false, false, false, "", 1, "", "", "", [], "", "", 0⟩
    ⟨sortStrings (normalizeMethods DefaultMethods []), true⟩ (by decide)

/-- C4: for every readable wordlist, the catalog contains the trimmed,
uppercased form of every non-empty, non-comment line, and every method of
the built-in default list; since the default list is non-empty, the catalog
is never empty. -/
theorem catalog_complete (parseURL : String → Except String Unit)
    (rawLines : List String) (net : ReqOutcome) (config : Config)
    (out : MethodsOutcome) (hcw : config.Wordlist ≠ "")
    (h : getMethods parseURL (.ok rawLines) net config = .ok out) :
    (∀ line ∈ rawLines, trimStr line ≠ "" → startsWithHash (trimStr line) = false →
        toUpperStr (trimStr line) ∈ out.methods) ∧
    (∀ d ∈ DefaultMethods, d ∈ out.methods) ∧
    out.methods ≠ [] := by
  obtain ⟨extra, hms⟩ := getMethods_ok_wordlist_shape hcw h
  have hdef : ∀ d ∈ DefaultMethods, toUpperStr (trimStr d) = d ∧ d ≠ "" := by decide
  have hdefmem : ∀ d ∈ DefaultMethods, d ∈ out.methods := by
    intro d hd
    rw [hms]
    have hx : d ∈ (DefaultMethods ++ processLines rawLines) ++ extra :=
      List.mem_append_left _ (List.mem_append_left _ hd)
    have := catalog_mem_of_input hx (by rw [(hdef d hd).1]; exact (hdef d hd).2)
    rwa [(hdef d hd).1] at this
  refine ⟨?_, hdefmem, ?_⟩
  · intro line hline ht hh
    rw [hms]
    have hpl : trimStr line ∈ processLines rawLines := by
      simp only [processLines, List.mem_filter]
      refine ⟨List.mem_map_of_mem _ hline, ?_⟩
      simp [ht, hh]
    have hx : trimStr line ∈ (DefaultMethods ++ processLines rawLines) ++ extra :=
      List.mem_append_left _ (List.mem_append_right _ hpl)
    have hne : toUpperStr (trimStr (trimStr line)) ≠ "" := by
      rw [trimStr_idem]
      exact toUpperStr_ne_empty ht
    have := catalog_mem_of_input hx hne
    rwa [trimStr_idem] at this
  · exact List.ne_nil_of_mem (hdefmem "CHECKIN" (by decide))

/-- Witness for C4: a concrete run with wordlist line `  custom `. -/
theorem catalog_complete_witness :
    (∀ line ∈ ["  custom ", "# note", ""],
      trimStr line ≠ "" → startsWithHash (trimStr line) = false →
      toUpperStr (trimStr line) ∈
        (sortStrings (normalizeMethods (DefaultMethods ++ processLines ["  custom ", "# note", ""]) []))) ∧
    (∀ d ∈ DefaultMethods, d ∈
        (sortStrings (normalizeMethods (DefaultMethods ++ processLines ["  custom ", "# note", ""]) []))) ∧
    (sortStrings (normalizeMethods (DefaultMethods ++ processLines ["  custom ", "# note", ""]) [])) ≠ [] :=
  catalog_complete (fun _ => .ok ()) ["  custom ", "# note", ""] (.transportFail "x")
    ⟨"", false, false, false, false, false, "wl.txt", 1, "", "", "", [], "", "", 0⟩
    ⟨sortStrings (normalizeMethods (DefaultMethods ++ processLines ["  custom ", "# note", ""]) []), true⟩
    (by decide) (by decide)

/-- Helper for C6: whenever discovery failed in any shape — a non-nil
error, or the nil-error shapes that yield no methods — the catalog is left
alone. -/
theorem applyOptions_skip (methods : List String) (opts : OptionsResult)
    (h : opts.err.isSome = true ∨ opts.methods = []) :
    applyOptions methods opts = methods := by
  obtain ⟨oms, oerr⟩ := opts
  cases oerr with
  | some e => simp [applyOptions]
  | none =>
    rcases h with h | h
    · simp at h
    · have h' : oms = [] := h
      subst h'
      simp [applyOptions]

/-- C6 counterexample: the OPTIONS discovery fails with a 404 status —
`getMethodsFromOptions` returns no methods — yet `getMethods` reports no
warning (`optionsWarning = false`), because the warning branch runs only on
a non-nil error and the non-200 shape returns the leftover nil error.  So
not every discovery failure is reported as a warning. -/
theorem discovery_warning_counterexample :
    getMethodsFromOptions (fun _ => .ok ())
      ⟨"http://x", false, false, false, false, false, "", 1, "", "", "", [], "", "", 0⟩
      (.response ⟨404, "Not Found", "", 0⟩) = ⟨[], none⟩ ∧
    getMethods (fun _ => .ok ()) (.ok []) (.response ⟨404, "Not Found", "", 0⟩)
      ⟨"http://x", false, false, false, false, false, "", 1, "", "", "", [], "", "", 0⟩ =
      .ok ⟨sortStrings (normalizeMethods DefaultMethods []), false⟩ :=
  ⟨by decide, by decide⟩

/-- C6 (amended): `getMethods` returns an error if and only if a wordlist
path is configured and reading it fails.  Every OPTIONS-discovery failure
(network error, non-OK status, missing Allow header) is non-fatal:
discovery is skipped and `getMethods` still returns the catalog built from
the mandatory sources without error; but only a genuine request or
transport failure — a non-nil error — is reported as a warning, while a
non-OK status or missing Allow header is skipped silently. -/
theorem getMethods_failure_semantics (parseURL : String → Except String Unit)
    (wc : Except String (List String)) (net : ReqOutcome) (config : Config) :
    ((∃ e, getMethods parseURL wc net config = .error e) ↔
      (config.Wordlist ≠ "" ∧ ∃ e, wc = .error e)) ∧
    (∀ out, getMethods parseURL wc net config = .ok out →
      out.optionsWarning = (getMethodsFromOptions parseURL config net).err.isSome) ∧
    (∀ out, getMethods parseURL wc net config = .ok out →
      ((getMethodsFromOptions parseURL config net).err.isSome = true ∨
        (getMethodsFromOptions parseURL config net).methods = []) →
      ∃ ms, collectMethods wc config = .ok ms ∧
        out.methods = sortStrings (normalizeMethods ms [])) := by
  refine ⟨(getMethods_error_iff_collect parseURL wc net config).trans
    (collectMethods_error_iff wc config), ?_, ?_⟩
  · intro out hok
    obtain ⟨-, -, -, hw⟩ := getMethods_ok_elim hok
    exact hw
  · intro out hok hskip
    obtain ⟨ms, hc, hm, -⟩ := getMethods_ok_elim hok
    refine ⟨ms, hc, ?_⟩
    rw [hm, applyOptions_skip _ _ hskip]

/-- Witness for C6: an unreadable wordlist is fatal at a concrete
configuration. -/
theorem getMethods_failure_semantics_witness :
    ∃ e, getMethods (fun _ => .ok ()) (.error "open failed") (.transportFail "x")
      ⟨"", false, false, false, false, false, "wl.txt", 1, "", "", "", [], "", "", 0⟩ =
        .error e :=
  (getMethods_failure_semantics (fun _ => .ok ()) (.error "open failed") (.transportFail "x")
      ⟨"", false, false, false, false, false, "wl.txt", 1, "", "", "", [], "", "", 0⟩).1.2
    ⟨by decide, "open failed", rfl⟩

/-- C9: an OPTIONS response with a status other than 200, or with status 200
but an empty `Allow` header, makes `getMethodsFromOptions` return a nil
method list and a nil error, so the warning branch of `getMethods` is not
taken; only a request-construction or transport error yields the non-nil
error that triggers the warning. -/
theorem options_silent_failures (parseURL : String → Except String Unit)
    (wc : Except String (List String)) (config : Config) (resp : HttpResponse)
    (hurl : config.URL ≠ "")
    (hclient : ∃ c, buildHTTPClient parseURL config = .ok c)
    (hshape : resp.statusCode ≠ 200 ∨ resp.allowHeader = "") :
    getMethodsFromOptions parseURL config (.response resp) = ⟨[], none⟩ ∧
    (∀ out, getMethods parseURL wc (.response resp) config = .ok out →
      out.optionsWarning = false) ∧
    (∀ e, getMethodsFromOptions parseURL config (.transportFail e) = ⟨[], some e⟩ ∧
          getMethodsFromOptions parseURL config (.constructFail e) = ⟨[], some e⟩) := by
  obtain ⟨c, hc⟩ := hclient
  have h1 : getMethodsFromOptions parseURL config (.response resp) = ⟨[], none⟩ := by
    unfold getMethodsFromOptions
    rw [if_neg hurl, hc]
    rcases hshape with h200 | hallow
    · simp only [if_pos h200]
    · by_cases h200 : resp.statusCode ≠ 200
      · simp only [if_pos h200]
      · simp only [if_neg h200, if_pos hallow]
  refine ⟨h1, ?_, ?_⟩
  · intro out hok
    obtain ⟨-, -, -, hw⟩ := getMethods_ok_elim hok
    rw [hw, h1]
    rfl
  · intro e
    refine ⟨?_, ?_⟩ <;>
      (unfold getMethodsFromOptions; rw [if_neg hurl, hc])

/-- Witness for C9: a concrete 404 response is silently ignored. -/
theorem options_silent_failures_witness :
    getMethodsFromOptions (fun _ => .ok ())
      ⟨"http://x", false, false, false, false, false, "", 1, "", "", "", [], "", "", 0⟩
      (.response ⟨404, "Not Found", "", 0⟩) = ⟨[], none⟩ :=
  (options_silent_failures (fun _ => .ok ()) (.ok [])
      ⟨"http://x", false, false, false, false, false, "", 1, "", "", "", [], "", "", 0⟩
      ⟨404, "Not Found", "", 0⟩ (by decide)
      ⟨⟨10, false, none, false⟩, by decide⟩ (.inl (by decide))).1

theorem testMethod_eq_recordOf (method : String) (outcome : ReqOutcome)
    (results : List (String × Result)) :
    (testMethod method outcome results).2 =
      (match recordOf outcome with
       | none => results
       | some r => insertResult results method r) := by
  cases outcome <;> rfl

/-- Counting lemma: `countP` after updating one position. -/
theorem countP_set (p : TaskState → Bool) :
    ∀ (l : List TaskState) (i : Nat) (a t : TaskState), l[i]? = some t →
      (l.set i a).countP p + (if p t then 1 else 0) =
        l.countP p + (if p a then 1 else 0) := by
  intro l
  induction l with
  | nil => intro i a t ht; simp at ht
  | cons x xs ih =>
    intro i a t ht
    cases i with
    | zero =>
      simp only [List.getElem?_cons_zero, Option.some.injEq] at ht
      subst ht
      simp only [List.set_cons_zero, List.countP_cons]
      omega
    | succ j =>
      simp only [List.getElem?_cons_succ] at ht
      simp only [List.set_cons_succ, List.countP_cons]
      have := ih j a t ht
      omega

/-- Inserting never changes the key set except for adding the inserted
key. -/
theorem insertResult_keys (results : List (String × Result)) (method : String)
    (r : Result) (k : String) :
    (k ∈ (insertResult results method r).map Prod.fst ↔
      (k = method ∨ k ∈ results.map Prod.fst)) := by
  unfold insertResult
  by_cases hp : results.any (fun p => p.1 == method) = true
  · rw [if_pos hp]
    have hfst : ∀ p : String × Result,
        (if p.1 == method then (method, r) else p).1 = p.1 := by
      intro p
      by_cases he : (p.1 == method) = true
      · rw [if_pos he]
        exact (eq_of_beq he).symm
      · rw [if_neg he]
    have hmaps : (results.map (fun p => if p.1 == method then (method, r) else p)).map
        Prod.fst = results.map Prod.fst := by
      rw [List.map_map]
      exact List.map_congr_left (fun p _ => hfst p)
    rw [hmaps]
    constructor
    · exact .inr
    · rintro (rfl | hk)
      · rw [List.any_eq_true] at hp
        obtain ⟨p, hpmem, hpe⟩ := hp
        rw [List.mem_map]
        exact ⟨p, hpmem, eq_of_beq hpe⟩
      · exact hk
  · rw [if_neg hp]
    rw [List.map_append, List.mem_append]
    simp only [List.map_cons, List.map_nil, List.mem_singleton]
    tauto

/-- Inserting preserves distinctness of the keys. -/
theorem insertResult_nodupKeys (results : List (String × Result)) (method : String)
    (r : Result) (h : (results.map Prod.fst).Nodup) :
    ((insertResult results method r).map Prod.fst).Nodup := by
  unfold insertResult
  by_cases hp : results.any (fun p => p.1 == method) = true
  · rw [if_pos hp]
    have hfst : ∀ p : String × Result,
        (if p.1 == method then (method, r) else p).1 = p.1 := by
      intro p
      by_cases he : (p.1 == method) = true
      · rw [if_pos he]
        exact (eq_of_beq he).symm
      · rw [if_neg he]
    have hmaps : (results.map (fun p => if p.1 == method then (method, r) else p)).map
        Prod.fst = results.map Prod.fst := by
      rw [List.map_map]
      exact List.map_congr_left (fun p _ => hfst p)
    rw [hmaps]
    exact h
  · rw [if_neg hp]
    rw [List.map_append]
    simp only [List.map_cons, List.map_nil]
    rw [List.nodup_append]
    refine ⟨h, List.nodup_singleton method, ?_⟩
    intro k hk hk1
    rw [List.mem_singleton] at hk1
    subst hk1
    rw [List.any_eq_true] at hp
    rw [List.mem_map] at hk
    obtain ⟨p, hpmem, hpk⟩ := hk
    exact hp ⟨p, hpmem, beq_iff_eq.2 hpk⟩

/-- Every entry after an insert is either the inserted pair or an old
entry. -/
theorem insertResult_values (results : List (String × Result)) (method : String)
    (r : Result) (q : String × Result) (hq : q ∈ insertResult results method r) :
    q = (method, r) ∨ q ∈ results := by
  unfold insertResult at hq
  by_cases hp : results.any (fun p => p.1 == method) = true
  · rw [if_pos hp] at hq
    rw [List.mem_map] at hq
    obtain ⟨p, hpmem, hpe⟩ := hq
    by_cases he : (p.1 == method) = true
    · rw [if_pos he] at hpe
      exact .inl hpe.symm
    · rw [if_neg he] at hpe
      exact .inr (hpe ▸ hpmem)
  · rw [if_neg hp] at hq
    rw [List.mem_append, List.mem_singleton] at hq
    tauto

/-- The inserted entry is present afterwards. -/
theorem insertResult_mem_self (results : List (String × Result)) (method : String)
    (r : Result) : (method, r) ∈ insertResult results method r := by
  unfold insertResult
  by_cases hp : results.any (fun p => p.1 == method) = true
  · rw [if_pos hp]
    rw [List.any_eq_true] at hp
    obtain ⟨p, hpmem, hpe⟩ := hp
    rw [List.mem_map]
    exact ⟨p, hpmem, by rw [if_pos hpe]⟩
  · rw [if_neg hp]
    rw [List.mem_append, List.mem_singleton]
    exact .inr rfl

theorem dispatchInv_init (methods : List String) (env : String → ReqOutcome) :
    DispatchInv methods env (initState methods) := by
  refine ⟨List.length_map _ _, ?_, List.nodup_nil, ?_⟩
  · intro k
    constructor
    · intro hk
      simp [initState] at hk
    · rintro ⟨i, hi, -, -⟩
      simp only [initState, List.getElem?_map] at hi
      cases hmi : methods[i]? with
      | none => rw [hmi] at hi; simp at hi
      | some m => rw [hmi] at hi; simp at hi
  · intro p hp
    simp [initState] at hp

theorem dispatchInv_step {methods : List String} {threads : Nat}
    {env : String → ReqOutcome} {s s' : DispatchState}
    (hstep : DispatchStep methods threads env s s')
    (hinv : DispatchInv methods env s) : DispatchInv methods env s' := by
  obtain ⟨hlen, hkeys, hnodup, hvals⟩ := hinv
  cases hstep with
  | acquire i s hi hcap =>
    have hilt : i < s.tasks.length := by
      by_contra hge
      rw [List.getElem?_eq_none (by omega)] at hi
      cases hi
    refine ⟨by rw [List.length_set]; exact hlen, ?_, hnodup, hvals⟩
    intro k
    rw [hkeys k]
    constructor
    · rintro ⟨j, hj, hmj, hok⟩
      refine ⟨j, ?_, hmj, hok⟩
      rcases eq_or_ne i j with rfl | hne
      · rw [hi] at hj; cases hj
      · rw [List.getElem?_set_ne hne]
        exact hj
    · rintro ⟨j, hj, hmj, hok⟩
      refine ⟨j, ?_, hmj, hok⟩
      rcases eq_or_ne i j with rfl | hne
      · rw [List.getElem?_set_self hilt] at hj
        cases hj
      · rw [List.getElem?_set_ne hne] at hj
        exact hj
  | finish i m s hi hm =>
    have hilt : i < s.tasks.length := by
      by_contra hge
      rw [List.getElem?_eq_none (by omega)] at hi
      cases hi
    have hlen' : (s.tasks.set i .done).length = methods.length := by
      rw [List.length_set]; exact hlen
    rw [testMethod_eq_recordOf]
    cases hrec : recordOf (env m) with
    | none =>
      refine ⟨hlen', ?_, hnodup, hvals⟩
      intro k
      rw [hkeys k]
      constructor
      · rintro ⟨j, hj, hmj, hok⟩
        refine ⟨j, ?_, hmj, hok⟩
        rcases eq_or_ne i j with rfl | hne
        · rw [hi] at hj; cases hj
        · rw [List.getElem?_set_ne hne]
          exact hj
      · rintro ⟨j, hj, hmj, hok⟩
        rcases eq_or_ne i j with rfl | hne
        · rw [List.getElem?_set_self hilt] at hj
          rw [hm] at hmj
          cases hmj
          rw [hrec] at hok
          cases hok
        · rw [List.getElem?_set_ne hne] at hj
          exact ⟨j, hj, hmj, hok⟩
    | some r =>
      refine ⟨hlen', ?_, insertResult_nodupKeys _ _ _ hnodup, ?_⟩
      · intro k
        rw [insertResult_keys, hkeys k]
        constructor
        · rintro (rfl | ⟨j, hj, hmj, hok⟩)
          · exact ⟨i, by rw [List.getElem?_set_self hilt], hm, by rw [hrec]; rfl⟩
          · refine ⟨j, ?_, hmj, hok⟩
            rcases eq_or_ne i j with rfl | hne
            · rw [hi] at hj; cases hj
            · rw [List.getElem?_set_ne hne]
              exact hj
        · rintro ⟨j, hj, hmj, hok⟩
          rcases eq_or_ne i j with rfl | hne
          · rw [hm] at hmj
            cases hmj
            exact .inl rfl
          · rw [List.getElem?_set_ne hne] at hj
            exact .inr ⟨j, hj, hmj, hok⟩
      · intro p hp
        rcases insertResult_values _ _ _ _ hp with rfl | hold
        · rw [hrec]
        · exact hvals p hold

theorem dispatchInv_reachable {methods : List String} {threads : Nat}
    {env : String → ReqOutcome} {s : DispatchState}
    (h : DispatchReachable methods threads env s) : DispatchInv methods env s := by
  induction h with
  | refl => exact dispatchInv_init methods env
  | tail _ hstep ih => exact dispatchInv_step hstep ih

/-- C1: after all workers have joined, the aggregate's keys are exactly the
catalog methods whose request construction succeeded, no key repeats, every
entry holds the result its worker recorded, and when every construction
succeeds the aggregate has exactly one entry per catalog method. -/
theorem dispatch_aggregate_complete (methods : List String) (threads : Nat)
    (env : String → ReqOutcome) (s : DispatchState)
    (hnd : methods.Nodup)
    (hreach : DispatchReachable methods threads env s)
    (hdone : ∀ t ∈ s.tasks, t = .done) :
    (∀ m, m ∈ s.results.map Prod.fst ↔
      (m ∈ methods ∧ (recordOf (env m)).isSome = true)) ∧
    (s.results.map Prod.fst).Nodup ∧
    (∀ p ∈ s.results, recordOf (env p.1) = some p.2) ∧
    ((∀ m ∈ methods, (recordOf (env m)).isSome = true) →
      s.results.length = methods.length) := by
  obtain ⟨hlen, hkeys, hnodup, hvals⟩ := dispatchInv_reachable hreach
  have hkeys' : ∀ m, m ∈ s.results.map Prod.fst ↔
      (m ∈ methods ∧ (recordOf (env m)).isSome = true) := by
    intro m
    rw [hkeys m]
    constructor
    · rintro ⟨i, -, hmi, hok⟩
      exact ⟨List.mem_iff_getElem?.2 ⟨i, hmi⟩, hok⟩
    · rintro ⟨hmem, hok⟩
      obtain ⟨i, hmi⟩ := List.mem_iff_getElem?.1 hmem
      have hilt : i < s.tasks.length := by
        rw [hlen]
        by_contra hge
        rw [List.getElem?_eq_none (by omega)] at hmi
        cases hmi
      refine ⟨i, ?_, hmi, hok⟩
      have := List.getElem?_eq_getElem hilt
      rw [this, Option.some.injEq]
      exact hdone _ (List.getElem_mem hilt)
  refine ⟨hkeys', hnodup, hvals, ?_⟩
  intro hall
  have hperm : List.Perm (s.results.map Prod.fst) methods := by
    rw [List.perm_ext_iff_of_nodup hnodup hnd]
    intro m
    rw [hkeys' m]
    constructor
    · exact fun h => h.1
    · exact fun h => ⟨h, hall m h⟩
  have := hperm.length_eq
  rw [List.length_map] at this
  exact this

/-- Witness for C1: a complete one-method dispatch. -/
theorem dispatch_aggregate_complete_witness :
    (([("GET", (⟨200, 0, "200 OK"⟩ : Result))]).map Prod.fst).Nodup ∧
    ([("GET", (⟨200, 0, "200 OK"⟩ : Result))]).length = (["GET"]).length := by
  have H := dispatch_aggregate_complete ["GET"] 1
      (fun _ => .response ⟨200, "200 OK", "", 0⟩)
      ⟨[.done], [("GET", ⟨200, 0, "200 OK"⟩)]⟩ (by decide)
      (Relation.ReflTransGen.tail
        (Relation.ReflTransGen.single
          (DispatchStep.acquire 0 (initState ["GET"]) rfl (by decide)))
        (DispatchStep.finish 0 "GET" ⟨[.running], []⟩ rfl rfl))
      (by decide)
  exact ⟨H.2.1, H.2.2.2 (by decide)⟩

/-- Helper for C2: the semaphore count never exceeds the limit on any
reachable snapshot. -/
theorem dispatch_running_le {methods : List String} {threads : Nat}
    {env : String → ReqOutcome} {s : DispatchState}
    (h : DispatchReachable methods threads env s) :
    countRunning s.tasks ≤ threads := by
  induction h with
  | refl =>
    have hzero : countRunning (initState methods).tasks = 0 := by
      rw [countRunning, initState, List.countP_map, List.countP_eq_zero]
      intro a _
      simp [isRunning]
    omega
  | @tail b c hpre hstep ih =>
    cases hstep with
    | acquire i s' hi hcap =>
      have hset := countP_set isRunning b.tasks i TaskState.running TaskState.pending hi
      simp only [isRunning] at hset
      simp at hset
      rw [countRunning] at ih hcap
      show List.countP isRunning (b.tasks.set i TaskState.running) ≤ threads
      omega
    | finish i m s' hi hm =>
      have hset := countP_set isRunning b.tasks i TaskState.done TaskState.running hi
      simp only [isRunning] at hset
      simp at hset
      rw [countRunning] at ih
      show List.countP isRunning (b.tasks.set i TaskState.done) ≤ threads
      omega

/-- C2: with concurrency limit N, no reachable snapshot of the dispatch
loop has more than N workers holding a semaphore slot (requests in flight),
and once every worker has finished every slot has been released. -/
theorem dispatch_concurrency_bound (methods : List String) (threads : Nat)
    (env : String → ReqOutcome) (s : DispatchState)
    (hreach : DispatchReachable methods threads env s) :
    countRunning s.tasks ≤ threads ∧
    ((∀ t ∈ s.tasks, t = .done) → countRunning s.tasks = 0) := by
  refine ⟨dispatch_running_le hreach, ?_⟩
  intro hdone
  rw [countRunning, List.countP_eq_zero]
  intro t ht
  rw [hdone t ht]
  decide

/-- Witness for C2: one worker admitted under limit 2. -/
theorem dispatch_concurrency_bound_witness :
    countRunning (⟨[.running], []⟩ : DispatchState).tasks ≤ 2 ∧
    ((∀ t ∈ (⟨[.running], []⟩ : DispatchState).tasks, t = .done) →
      countRunning (⟨[.running], []⟩ : DispatchState).tasks = 0) :=
  dispatch_concurrency_bound ["GET"] 2 (fun _ => .transportFail "x")
    ⟨[.running], []⟩
    (Relation.ReflTransGen.single
      (DispatchStep.acquire 0 (initState ["GET"]) rfl (by decide)))

/-- C7: a transport failure makes `testMethod` record exactly
`Result 0 0 (error text)` for the method, with exactly one request issued
(no retry); and the run's success or failure is independent of the
per-method outcomes — a transport failure never becomes an error of the
run. -/
theorem transport_failure_recorded (method e : String)
    (results : List (String × Result)) :
    testMethod method (.transportFail e) results =
      (1, insertResult results method ⟨0, 0, e⟩) ∧
    (method, (⟨0, 0, e⟩ : Result)) ∈
      (testMethod method (.transportFail e) results).2 ∧
    (∀ parseURL headersResult cookiesResult wordlistContent net exportResult
        config env env',
      (runSingleProbe parseURL headersResult cookiesResult wordlistContent net
          env exportResult config).isOk =
        (runSingleProbe parseURL headersResult cookiesResult wordlistContent net
          env' exportResult config).isOk) := by
  refine ⟨rfl, insertResult_mem_self results method ⟨0, 0, e⟩, ?_⟩
  intro parseURL headersResult cookiesResult wordlistContent net exportResult
    config env env'
  unfold runSingleProbe
  cases buildHTTPClient parseURL config with
  | error e1 => rfl
  | ok c =>
    cases headersResult with
    | error e2 => rfl
    | ok u2 =>
      cases cookiesResult with
      | error e3 => rfl
      | ok u3 =>
        cases getMethods parseURL wordlistContent net config with
        | error e4 => rfl
        | ok out =>
          by_cases hj : config.JSONFile ≠ ""
          · cases exportResult with
            | error e5 => simp [hj, Except.isOk, Except.toBool]
            | ok u5 => simp [hj, Except.isOk, Except.toBool]
          · simp [hj, Except.isOk, Except.toBool]

end GoHTTPProbe
